import Mathlib

/-!
Verification of the community-detection engine (`src/community-detection/src/lib.rs`).

The engine ingests a stream of CSV records, builds a weighted directed graph with a
node-identity registry, computes the strongly-connected-component partition, and
produces a DOT render description with one color per community.

Modelling conventions:
* A raw input row is the list of textual fields of one delivered CSV record
  (the file/CSV-reader layer is an external collaborator; rows here are the
  records handed to the `for_each` body of `build_graph_from_csv_parallel`).
* The shared `Mutex`-protected graph state is modelled by explicit state passing:
  the lock makes each record's registry-update + edge-upsert atomic, so a
  concurrent execution is some sequential processing order of the row list;
  order-independence claims are stated over permutations of the row list.
* `petgraph`'s `Graph<String, u32>` is modelled as a node list (indices are
  positions, assigned in insertion order as `add_node` does) plus an edge list
  of (source index, target index, weight) triples; `find_edge` is first-match
  search, exactly as the aggregation logic observes it.
* Panics (`unwrap` on a malformed CSV record) are modelled as `Except.error`:
  either way the construction call produces no graph.
* Weights are `Nat`; every parsed row weight is < 2^32 as `u32` parsing rejects
  larger values, and a checked-arithmetic overflow of the accumulated weight
  aborts construction rather than producing a graph, so sums are exact whenever
  a graph is produced.
-/

namespace CommunityDetection

/-- One raw input row: the textual fields of one delivered CSV record. -/
abbrev Row := List String

/-- Errors of graph construction: a record without the required fields aborts the
whole ingestion (`record.unwrap()` / field indexing in the source). -/
inductive CsvError where
  | malformedRecord
deriving DecidableEq, Repr

/-- Value of an ASCII decimal digit, `none` on any other character. -/
def digitVal (c : Char) : Option Nat :=
  if '0' ≤ c ∧ c ≤ '9' then some (c.toNat - '0'.toNat) else none

/-- Accumulate decimal digits left to right; `none` on any non-digit. -/
def parseDigits (cs : List Char) : Option Nat :=
  cs.foldl (fun acc c =>
    match acc, digitVal c with
    | some n, some d => some (n * 10 + d)
    | _, _ => none) (some 0)

/-- Rust's `str::parse::<u32>`: optional leading `+`, one or more ASCII digits,
value must fit in `u32`; `none` on the empty string, non-digits, or overflow. -/
def rustParseU32 (s : String) : Option Nat :=
  let cs := match s.data with
    | '+' :: rest => rest
    | cs => cs
  if cs.isEmpty then none
  else
    match parseDigits cs with
    | some n => if n < 2 ^ 32 then some n else none
    | none => none

/-- The weight taken from a row's third field: `record[2].parse().unwrap_or(1)`. -/
def weightOf (w : String) : Nat := (rustParseU32 w).getD 1

/-- Model of `petgraph::Graph<String, u32>`: node payloads in index order and
directed edges (source index, target index, accumulated weight). -/
structure RGraph where
  nodes : List String
  edges : List (Nat × Nat × Nat)
deriving DecidableEq, Repr

/-- Well-formedness petgraph guarantees structurally: edge endpoints are valid
node indices. -/
def RGraph.WF (g : RGraph) : Prop :=
  ∀ e ∈ g.edges, e.1 < g.nodes.length ∧ e.2.1 < g.nodes.length

/-- Lookup in a string-keyed map modelled as an association list (the value of
`HashMap::get` / `entry`-style probing: at most one binding per key is live, the
first one). -/
def lookupId : List (String × Nat) → String → Option Nat
  | [], _ => none
  | (k, v) :: rest, u => if k = u then some v else lookupId rest u

/-- Construction state: the shared graph plus the `node_indices` registry
(identifier → NodeIndex), both updated under the same critical section. -/
structure BuildState where
  graph : RGraph
  nodeIndices : List (String × Nat)
deriving DecidableEq, Repr

/-- The empty initial state (`Graph::new()`, empty `HashMap`). -/
def initState : BuildState := ⟨⟨[], []⟩, []⟩

/-- Node registration, `node_indices.entry(user).or_insert_with(|| graph.add_node(user))`:
reuse the registered index, or append a fresh node and register its index. -/
def getOrInsertNode (st : BuildState) (user : String) : Nat × BuildState :=
  match lookupId st.nodeIndices user with
  | some i => (i, st)
  | none =>
      let i := st.graph.nodes.length
      (i, { graph := { st.graph with nodes := st.graph.nodes ++ [user] },
            nodeIndices := st.nodeIndices ++ [(user, i)] })

/-- Edge upsert, `find_edge` weight-add or `add_edge`: add `w` to the first edge
with the given ordered endpoints, else append a new edge carrying `w`. -/
def upsertEdge : List (Nat × Nat × Nat) → Nat → Nat → Nat → List (Nat × Nat × Nat)
  | [], s, t, w => [(s, t, w)]
  | e :: rest, s, t, w =>
      if e.1 = s ∧ e.2.1 = t then (e.1, e.2.1, e.2.2 + w) :: rest
      else e :: upsertEdge rest s t w

/-- The body of the `for_each` over records: a record needs fields `[0]`, `[1]`,
`[2]` (a shorter record aborts ingestion); the weight field falls back to 1;
node registration and edge upsert run atomically under the lock. -/
def processRecord (st : BuildState) (row : Row) : Except CsvError BuildState :=
  match row with
  | user1 :: user2 :: wfield :: _ =>
      let w := weightOf wfield
      let (node1, st1) := getOrInsertNode st user1
      let (node2, st2) := getOrInsertNode st1 user2
      Except.ok { st2 with
        graph := { st2.graph with edges := upsertEdge st2.graph.edges node1 node2 w } }
  | _ => Except.error CsvError.malformedRecord

/-- Process the whole delivered record stream in the given order. -/
def buildState (rows : List Row) : Except CsvError BuildState :=
  rows.foldlM processRecord initState

/-- Model of `CommunityDetector::build_graph_from_csv_parallel`: the finished
graph, or an error (and no graph) if any record is malformed. -/
def build_graph_from_csv_parallel (rows : List Row) : Except CsvError RGraph :=
  (buildState rows).map (·.graph)

/-- Model of the `CommunityDetector` struct: the graph plus the node → community
labelling (`labels : HashMap<String, usize>`, modelled as an association list). -/
structure CommunityDetector where
  graph : RGraph
  labels : List (String × Nat)
deriving DecidableEq, Repr

/-- Model of `CommunityDetector::from_csv`: build the graph; `labels` starts empty. -/
def from_csv (rows : List Row) : Except CsvError CommunityDetector :=
  (build_graph_from_csv_parallel rows).map (fun g => ⟨g, []⟩)

/-! Reachability and the strongly-connected-component partition. -/

/-- Decidable edge test: does the graph carry an edge `i → j`. -/
def adjacent (g : RGraph) (i j : Nat) : Bool :=
  g.edges.any (fun e => e.1 == i && e.2.1 == j)

/-- Directed reachability (a directed path, possibly empty, following edge
direction): the reflexive-transitive closure of the edge relation. -/
def Reaches (g : RGraph) (i j : Nat) : Prop :=
  Relation.ReflTransGen (fun a b => adjacent g a b = true) i j

/-- Fuel-bounded reachability: a directed walk of at most `n` edges from `i` to
`j` whose intermediate stops are node indices of `g`. -/
def reachN (g : RGraph) : Nat → Nat → Nat → Bool
  | 0, i, j => i == j
  | n + 1, i, j =>
      i == j ||
        (List.range g.nodes.length).any (fun k => adjacent g i k && reachN g n k j)

/-- Executable reachability: `g.nodes.length` edges suffice for any directed
path in a well-formed graph. -/
def reaches (g : RGraph) (i j : Nat) : Bool :=
  reachN g g.nodes.length i j

/-- Walk certificate: `l` lists the successive stops of a directed walk from
`i` to `j` (`i` excluded, `j` the last stop when `l` is nonempty). -/
def chainOk (g : RGraph) : Nat → List Nat → Nat → Bool
  | i, [], j => i == j
  | i, k :: rest, j => adjacent g i k && chainOk g k rest j

/-- Mutual reachability: `i` and `j` lie on a common directed cycle (or are
equal); this is the equivalence whose classes are the strongly connected
components. -/
def mutualB (g : RGraph) (i j : Nat) : Bool :=
  reaches g i j && reaches g j i

/-- Is `i` the smallest index of its strongly connected component. -/
def isRep (g : RGraph) (i : Nat) : Bool :=
  (List.range i).all (fun j => ! mutualB g i j)

/-- The component of representative `r`: all node indices mutually reachable
with `r`. -/
def compOf (g : RGraph) (r : Nat) : List Nat :=
  (List.range g.nodes.length).filter (fun j => mutualB g r j)

/-- The component representatives in increasing order. -/
def repsList (g : RGraph) : List Nat :=
  (List.range g.nodes.length).filter (isRep g)

/-- Modelled from the spec: `petgraph::algo::tarjan_scc` is an external library
call whose source is not part of this repository. Its contract (spec §4.3):
return the maximal strongly connected components of the directed graph, every
node in exactly one component. We model it as the list of components, each
component the indices mutually reachable with its smallest member, components
ordered by smallest member (the spec states the emission order is not
semantically meaningful and no claim depends on it). -/
def tarjan_scc (g : RGraph) : List (List Nat) :=
  (repsList g).map (compOf g)

/-- Model of `CommunityDetector::detect_communities`: enumerate the components,
then flat-map each (id, nodes) pair to the (node payload, id) entries; the
resulting `labels` map is modelled as the association list produced. -/
def detect_communities (g : RGraph) : List (String × Nat) :=
  ((tarjan_scc g).enum.map
    (fun p => p.2.map (fun i => (g.nodes.getD i "", p.1)))).flatten

/-- Helper of `get_communities`: push `u` onto the bucket of community `c`,
creating the bucket if absent (`entry(id).or_insert_with(Vec::new).push(user)`). -/
def pushComm : List (Nat × List String) → Nat → String → List (Nat × List String)
  | [], c, u => [(c, [u])]
  | (c', us) :: rest, c, u =>
      if c' = c then (c', us ++ [u]) :: rest
      else (c', us) :: pushComm rest c u

/-- Model of `CommunityDetector::get_communities`: group the labels map by
community id. -/
def get_communities (d : CommunityDetector) : List (Nat × List String) :=
  d.labels.foldl (fun acc p => pushComm acc p.2 p.1) []

/-! The DOT render description. -/

/-- Failure of the render-description step: a graph node missing from the
labels map (`node_to_community.get(username).unwrap()` in the source). -/
inductive DotError where
  | partitionViolation
deriving DecidableEq, Repr

/-- Hue of a community: `(comm_id * 60) % 360`. -/
def nodeHue (c : Nat) : Nat := (c * 60) % 360

/-- Rendering of the hue as done by the format specifier on `hue as f32`: the
hue is a multiple of 60 below 360, so one decimal place prints as `.0`. -/
def formatHue (h : Nat) : String := toString h ++ ".0"

/-- The encoded fill color of a community: hue plus fixed saturation 0.5 and
lightness 0.7. -/
def nodeColor (c : Nat) : String := formatHue (nodeHue c) ++ " 0.5 0.7"

/-- The per-node attribute string produced by the node attribute getter. -/
def nodeAttr (u : String) (c : Nat) : String :=
  "label=\"" ++ u ++ "\", style=filled, fillcolor=\"" ++ nodeColor c ++ "\""

/-- The per-edge attribute string: the accumulated weight as the label. -/
def edgeAttr (w : Nat) : String := "label=\"" ++ toString w ++ "\""

/-- Model of `CommunityDetector::save_graph_to_dot`: the node and edge attribute
strings of the DOT output. The node attribute getter looks each node's payload
up in the labels map and `unwrap`s; a missing node aborts the whole describe
call (modelled as `Except.error`). -/
def save_graph_to_dot (d : CommunityDetector) :
    Except DotError (List String × List String) := do
  let nodeAttrs ← d.graph.nodes.mapM (fun u =>
    match lookupId d.labels u with
    | some c => Except.ok (nodeAttr u c)
    | none => Except.error DotError.partitionViolation)
  Except.ok (nodeAttrs, d.graph.edges.map (fun e => edgeAttr e.2.2))

/-! Aggregation bookkeeping for the construction claims. -/

/-- Identifier fields a row contributes when accepted. -/
def rowIds : Row → List String
  | u1 :: u2 :: _ :: _ => [u1, u2]
  | _ => []

/-- All identifiers of a row stream. -/
def seenIds (rows : List Row) : List String := (rows.map rowIds).flatten

/-- Weight a single row contributes to the ordered identifier pair `(s, t)`. -/
def rowContrib (s t : String) : Row → Nat
  | u1 :: u2 :: w :: _ => if u1 = s ∧ u2 = t then weightOf w else 0
  | _ => 0

/-- Total weight a row stream carries for the ordered identifier pair `(s, t)`. -/
def pairSum (rows : List Row) (s t : String) : Nat :=
  (rows.map (rowContrib s t)).sum

/-- Does edge `e` connect the node labelled `s` to the node labelled `t`. -/
def edgeMatches (g : RGraph) (s t : String) (e : Nat × Nat × Nat) : Bool :=
  g.nodes[e.1]? == some s && g.nodes[e.2.1]? == some t

/-- Accumulated weight the graph carries from identifier `s` to identifier `t`
(summed over all such edges; the aggregation invariant makes at most one). -/
def pairWeight (g : RGraph) (s t : String) : Nat :=
  ((g.edges.filter (edgeMatches g s t)).map (fun e => e.2.2)).sum

/-- No two distinct edges share their ordered endpoint pair. -/
def EdgesOnePerPair (g : RGraph) : Prop :=
  g.edges.Pairwise (fun e e' => e.1 ≠ e'.1 ∨ e.2.1 ≠ e'.2.1)

/-- The construction-state invariant: edge endpoints are valid node indices,
node payloads are distinct, the registry and the node list are inverse to each
other, and no ordered pair owns two edges. -/
structure Inv (st : BuildState) : Prop where
  wf : st.graph.WF
  nd : st.graph.nodes.Nodup
  regSound : ∀ u i, lookupId st.nodeIndices u = some i → st.graph.nodes[i]? = some u
  regComplete : ∀ i u, st.graph.nodes[i]? = some u → lookupId st.nodeIndices u = some i
  onePer : EdgesOnePerPair st.graph

/-! Lemmas: association-list lookup. -/

theorem lookupId_append (l₁ l₂ : List (String × Nat)) (u : String) :
    lookupId (l₁ ++ l₂) u =
      match lookupId l₁ u with
      | some v => some v
      | none => lookupId l₂ u := by
  induction l₁ with
  | nil => simp [lookupId]
  | cons p rest ih =>
      obtain ⟨k, v⟩ := p
      by_cases h : k = u <;> simp [lookupId, h, ih]

/-! Lemmas: node registration. -/

theorem getOrInsertNode_spec (st : BuildState) (u : String) (hInv : Inv st) :
    Inv (getOrInsertNode st u).2 ∧
    (∃ ext, (getOrInsertNode st u).2.graph.nodes = st.graph.nodes ++ ext) ∧
    (getOrInsertNode st u).2.graph.edges = st.graph.edges ∧
    (getOrInsertNode st u).2.graph.nodes[(getOrInsertNode st u).1]? = some u ∧
    (∀ v, (lookupId (getOrInsertNode st u).2.nodeIndices v).isSome ↔
      (lookupId st.nodeIndices v).isSome ∨ v = u) := by
  cases hl : lookupId st.nodeIndices u with
  | some i =>
      simp only [getOrInsertNode, hl]
      refine ⟨hInv, ⟨[], by simp⟩, by trivial, hInv.regSound u i hl, fun v => ?_⟩
      constructor
      · exact fun h => Or.inl h
      · rintro (h | rfl)
        · exact h
        · simp [hl]
  | none =>
      have hnotmem : u ∉ st.graph.nodes := by
        intro hmem
        obtain ⟨n, hn⟩ := List.mem_iff_getElem?.mp hmem
        have := hInv.regComplete n u hn
        rw [hl] at this
        exact Option.noConfusion this
      simp only [getOrInsertNode, hl]
      refine ⟨?_, ⟨[u], rfl⟩, by trivial, List.getElem?_concat_length _ _, fun v => ?_⟩
      · constructor
        · intro e he
          obtain ⟨h1, h2⟩ := hInv.wf e he
          simp only [List.length_append, List.length_singleton]
          omega
        · simpa [List.nodup_append] using ⟨hInv.nd, hnotmem⟩
        · intro v i hv
          rw [lookupId_append] at hv
          cases hreg : lookupId st.nodeIndices v with
          | some j =>
              rw [hreg] at hv
              cases hv
              have hget := hInv.regSound v i hreg
              have hlt : i < st.graph.nodes.length := by
                have := List.getElem?_eq_some.mp hget
                exact this.1
              rw [List.getElem?_append_left hlt]
              exact hget
          | none =>
              rw [hreg] at hv
              simp only [lookupId] at hv
              by_cases huv : u = v
              · subst huv
                simp only [if_pos rfl] at hv
                cases hv
                exact List.getElem?_concat_length _ _
              · rw [if_neg huv] at hv
                exact Option.noConfusion hv
        · intro i v hv
          have hlen : i < st.graph.nodes.length + 1 := by
            have := List.getElem?_eq_some.mp hv
            simpa using this.1
          rw [lookupId_append]
          rcases Nat.lt_or_ge i st.graph.nodes.length with hlt | hge
          · rw [List.getElem?_append_left hlt] at hv
            have := hInv.regComplete i v hv
            rw [this]
          · have hi : i = st.graph.nodes.length := by omega
            subst hi
            rw [List.getElem?_concat_length] at hv
            cases hv
            rw [hl]
            simp [lookupId]
        · exact hInv.onePer
      · rw [lookupId_append]
        cases hreg : lookupId st.nodeIndices v with
        | some j => simp
        | none =>
            simp only [lookupId]
            by_cases huv : u = v
            · subst huv
              simp
            · rw [if_neg huv]
              constructor
              · intro h
                exact absurd h (by simp)
              · rintro (h | rfl)
                · exact absurd h (by simp)
                · exact absurd rfl huv

/-! Lemmas: edge upsert. -/

theorem mem_upsertEdge (es : List (Nat × Nat × Nat)) (n1 n2 w : Nat) (x : Nat × Nat × Nat)
    (hx : x ∈ upsertEdge es n1 n2 w) :
    (∃ y ∈ es, x.1 = y.1 ∧ x.2.1 = y.2.1) ∨ (x.1 = n1 ∧ x.2.1 = n2) := by
  induction es with
  | nil =>
      simp only [upsertEdge, List.mem_singleton] at hx
      subst hx
      exact Or.inr ⟨rfl, rfl⟩
  | cons e rest ih =>
      simp only [upsertEdge] at hx
      by_cases he : e.1 = n1 ∧ e.2.1 = n2
      · rw [if_pos he] at hx
        rcases List.mem_cons.mp hx with h | h
        · subst h
          exact Or.inl ⟨e, List.mem_cons_self e rest, rfl, rfl⟩
        · exact Or.inl ⟨x, List.mem_cons_of_mem e h, rfl, rfl⟩
      · rw [if_neg he] at hx
        rcases List.mem_cons.mp hx with h | h
        · subst h
          exact Or.inl ⟨x, List.mem_cons_self x rest, rfl, rfl⟩
        · rcases ih h with ⟨y, hy, h1, h2⟩ | h
          · exact Or.inl ⟨y, List.mem_cons_of_mem e hy, h1, h2⟩
          · exact Or.inr h

theorem onePer_upsertEdge (es : List (Nat × Nat × Nat)) (n1 n2 w : Nat)
    (h : es.Pairwise (fun e e' => e.1 ≠ e'.1 ∨ e.2.1 ≠ e'.2.1)) :
    (upsertEdge es n1 n2 w).Pairwise (fun e e' => e.1 ≠ e'.1 ∨ e.2.1 ≠ e'.2.1) := by
  induction es with
  | nil => simp [upsertEdge]
  | cons e rest ih =>
      rcases List.pairwise_cons.mp h with ⟨hhead, htail⟩
      simp only [upsertEdge]
      by_cases he : e.1 = n1 ∧ e.2.1 = n2
      · rw [if_pos he]
        exact List.pairwise_cons.mpr ⟨fun y hy => hhead y hy, htail⟩
      · rw [if_neg he]
        refine List.pairwise_cons.mpr ⟨?_, ih htail⟩
        intro y hy
        rcases mem_upsertEdge rest n1 n2 w y hy with ⟨z, hz, h1, h2⟩ | ⟨h1, h2⟩
        · rcases hhead z hz with hne | hne
          · exact Or.inl (h1 ▸ hne)
          · exact Or.inr (h2 ▸ hne)
        · rcases not_and_or.mp he with hne | hne
          · exact Or.inl (by rw [h1]; exact hne)
          · exact Or.inr (by rw [h2]; exact hne)

theorem sum_upsertEdge_true (es : List (Nat × Nat × Nat)) (n1 n2 w : Nat)
    (Q : Nat × Nat × Nat → Bool)
    (hQ : ∀ a b w1 w2, Q (a, b, w1) = Q (a, b, w2))
    (hyes : Q (n1, n2, w) = true) :
    (((upsertEdge es n1 n2 w).filter Q).map (fun e => e.2.2)).sum
      = ((es.filter Q).map (fun e => e.2.2)).sum + w := by
  induction es with
  | nil => simp [upsertEdge, List.filter, hyes]
  | cons e rest ih =>
      obtain ⟨a, b, we⟩ := e
      simp only [upsertEdge]
      by_cases he : (a, b, we).1 = n1 ∧ (a, b, we).2.1 = n2
      · obtain ⟨h1, h2⟩ := he
        simp only at h1 h2
        subst h1; subst h2
        rw [if_pos ⟨rfl, rfl⟩]
        have hqe : Q (a, b, we) = true := (hQ a b we w).trans hyes
        have hqe' : Q (a, b, we + w) = true := (hQ a b (we + w) w).trans hyes
        simp [List.filter_cons, hqe, hqe']
        omega
      · rw [if_neg he]
        cases hq : Q (a, b, we) with
        | true => simp [List.filter_cons, hq, ih]; omega
        | false => simp [List.filter_cons, hq, ih]

theorem sum_upsertEdge_false (es : List (Nat × Nat × Nat)) (n1 n2 w : Nat)
    (Q : Nat × Nat × Nat → Bool)
    (hQ : ∀ a b w1 w2, Q (a, b, w1) = Q (a, b, w2))
    (hno : Q (n1, n2, w) = false) :
    (((upsertEdge es n1 n2 w).filter Q).map (fun e => e.2.2)).sum
      = ((es.filter Q).map (fun e => e.2.2)).sum := by
  induction es with
  | nil => simp [upsertEdge, List.filter, hno]
  | cons e rest ih =>
      obtain ⟨a, b, we⟩ := e
      simp only [upsertEdge]
      by_cases he : (a, b, we).1 = n1 ∧ (a, b, we).2.1 = n2
      · obtain ⟨h1, h2⟩ := he
        simp only at h1 h2
        subst h1; subst h2
        rw [if_pos ⟨rfl, rfl⟩]
        have hqe : Q (a, b, we) = false := (hQ a b we w).trans hno
        have hqe' : Q (a, b, we + w) = false := (hQ a b (we + w) w).trans hno
        simp [List.filter_cons, hqe, hqe']
      · rw [if_neg he]
        cases hq : Q (a, b, we) with
        | true => simp [List.filter_cons, hq, ih]
        | false => simp [List.filter_cons, hq, ih]

/-! Lemmas: pair weights. -/

theorem pairWeight_extend (nodes ext : List String) (es : List (Nat × Nat × Nat))
    (hwf : ∀ e ∈ es, e.1 < nodes.length ∧ e.2.1 < nodes.length) (s t : String) :
    pairWeight ⟨nodes ++ ext, es⟩ s t = pairWeight ⟨nodes, es⟩ s t := by
  unfold pairWeight
  have : List.filter (edgeMatches ⟨nodes ++ ext, es⟩ s t) es
      = List.filter (edgeMatches ⟨nodes, es⟩ s t) es := by
    apply List.filter_congr
    intro e he
    obtain ⟨h1, h2⟩ := hwf e he
    unfold edgeMatches
    simp only [List.getElem?_append_left h1, List.getElem?_append_left h2]
  simp only at this ⊢
  rw [this]

theorem edgeMatches_weight_irrel (g : RGraph) (s t : String) (a b w1 w2 : Nat) :
    edgeMatches g s t (a, b, w1) = edgeMatches g s t (a, b, w2) := rfl

/-! Lemmas: one construction step. -/

theorem processRecord_ok (st st' : BuildState) (row : Row)
    (h : processRecord st row = Except.ok st') (hInv : Inv st) :
    Inv st' ∧
    (∃ ext, st'.graph.nodes = st.graph.nodes ++ ext) ∧
    (∀ s t, pairWeight st'.graph s t = pairWeight st.graph s t + rowContrib s t row) ∧
    (∀ v, (lookupId st'.nodeIndices v).isSome ↔
      (lookupId st.nodeIndices v).isSome ∨ v ∈ rowIds row) := by
  match row with
  | [] => simp [processRecord] at h
  | [u1] => simp [processRecord] at h
  | [u1, u2] => simp [processRecord] at h
  | u1 :: u2 :: wf :: rest3 =>
    have S1 := getOrInsertNode_spec st u1 hInv
    rcases hgo1 : getOrInsertNode st u1 with ⟨n1, st1⟩
    rw [hgo1] at S1
    obtain ⟨hInv1, ⟨ext1, hext1⟩, hedges1, hget1, hkeys1⟩ := S1
    have S2 := getOrInsertNode_spec st1 u2 hInv1
    rcases hgo2 : getOrInsertNode st1 u2 with ⟨n2, st2⟩
    rw [hgo2] at S2
    obtain ⟨hInv2, ⟨ext2, hext2⟩, hedges2, hget2, hkeys2⟩ := S2
    simp only [processRecord, hgo1, hgo2, Except.ok.injEq] at h
    subst h
    dsimp only at hInv1 hInv2 hext1 hedges1 hget1 hkeys1 hext2 hedges2 hget2 hkeys2
    have hn1lt : n1 < st1.graph.nodes.length := (List.getElem?_eq_some.mp hget1).1
    have hn2lt : n2 < st2.graph.nodes.length := (List.getElem?_eq_some.mp hget2).1
    have hget1' : st2.graph.nodes[n1]? = some u1 := by
      rw [hext2, List.getElem?_append_left hn1lt]
      exact hget1
    have hn1lt' : n1 < st2.graph.nodes.length := (List.getElem?_eq_some.mp hget1').1
    refine ⟨?_, ?_, ?_, ?_⟩
    · constructor
      · intro e he
        dsimp only at he ⊢
        rcases mem_upsertEdge _ _ _ _ e he with ⟨y, hy, hy1, hy2⟩ | ⟨h1, h2⟩
        · obtain ⟨b1, b2⟩ := hInv2.wf y hy
          omega
        · omega
      · exact hInv2.nd
      · exact hInv2.regSound
      · exact hInv2.regComplete
      · exact onePer_upsertEdge _ _ _ _ hInv2.onePer
    · exact ⟨ext1 ++ ext2, by dsimp only; rw [hext2, hext1, List.append_assoc]⟩
    · intro s t
      dsimp only
      have hQw : ∀ a b w1 w2,
          edgeMatches st2.graph s t (a, b, w1) = edgeMatches st2.graph s t (a, b, w2) :=
        fun a b w1 w2 => rfl
      have hupq : pairWeight
          ⟨st2.graph.nodes, upsertEdge st2.graph.edges n1 n2 (weightOf wf)⟩ s t
          = pairWeight st2.graph s t
            + (if u1 = s ∧ u2 = t then weightOf wf else 0) := by
        by_cases hcase : u1 = s ∧ u2 = t
        · obtain ⟨hs, ht⟩ := hcase
          have hyes : edgeMatches st2.graph s t (n1, n2, weightOf wf) = true := by
            unfold edgeMatches
            simp only
            rw [hget1', hget2, hs, ht]
            simp
          rw [if_pos ⟨hs, ht⟩]
          unfold pairWeight
          simp only
          exact sum_upsertEdge_true _ _ _ _ _ hQw hyes
        · have hno : edgeMatches st2.graph s t (n1, n2, weightOf wf) = false := by
            unfold edgeMatches
            simp only
            rw [hget1', hget2]
            rcases not_and_or.mp hcase with hne | hne <;> simp [hne]
          rw [if_neg hcase, Nat.add_zero]
          unfold pairWeight
          simp only
          exact sum_upsertEdge_false _ _ _ _ _ hQw hno
      have hstep2 : pairWeight st2.graph s t = pairWeight st1.graph s t := by
        have := pairWeight_extend st1.graph.nodes ext2 st1.graph.edges hInv1.wf s t
        calc pairWeight st2.graph s t
            = pairWeight ⟨st1.graph.nodes ++ ext2, st1.graph.edges⟩ s t := by
              rw [← hext2, ← hedges2]
          _ = pairWeight ⟨st1.graph.nodes, st1.graph.edges⟩ s t := this
      have hstep1 : pairWeight st1.graph s t = pairWeight st.graph s t := by
        have := pairWeight_extend st.graph.nodes ext1 st.graph.edges hInv.wf s t
        calc pairWeight st1.graph s t
            = pairWeight ⟨st.graph.nodes ++ ext1, st.graph.edges⟩ s t := by
              rw [← hext1, ← hedges1]
          _ = pairWeight ⟨st.graph.nodes, st.graph.edges⟩ s t := this
      have hfin : pairWeight
          ⟨st2.graph.nodes, upsertEdge st2.graph.edges n1 n2 (weightOf wf)⟩ s t
          = pairWeight st.graph s t + rowContrib s t (u1 :: u2 :: wf :: rest3) := by
        rw [hupq, hstep2, hstep1]
        unfold rowContrib
        rfl
      exact hfin
    · intro v
      dsimp only
      rw [hkeys2, hkeys1]
      unfold rowIds
      simp only [List.mem_cons, List.not_mem_nil, or_false]
      tauto

/-! Lemmas: the whole construction fold. -/

theorem initState_inv : Inv initState := by
  constructor
  · intro e he
    simp [initState] at he
  · simp [initState]
  · intro u i hu
    simp [initState, lookupId] at hu
  · intro i u hu
    simp [initState] at hu
  · simp [initState, EdgesOnePerPair]

theorem buildState_go (rows : List Row) (st0 st' : BuildState)
    (h : rows.foldlM processRecord st0 = Except.ok st') (hInv : Inv st0) :
    Inv st' ∧
    (∀ s t, pairWeight st'.graph s t = pairWeight st0.graph s t + pairSum rows s t) ∧
    (∀ v, (lookupId st'.nodeIndices v).isSome ↔
      (lookupId st0.nodeIndices v).isSome ∨ v ∈ seenIds rows) := by
  induction rows generalizing st0 with
  | nil =>
      simp only [List.foldlM_nil, pure, Except.pure, Except.ok.injEq] at h
      subst h
      refine ⟨hInv, fun s t => by simp [pairSum], fun v => by simp [seenIds]⟩
  | cons row rest ih =>
      rw [List.foldlM_cons] at h
      cases hstep : processRecord st0 row with
      | error e =>
          rw [hstep] at h
          simp [Bind.bind, Except.bind] at h
      | ok st1 =>
          rw [hstep] at h
          simp only [Bind.bind, Except.bind] at h
          obtain ⟨hInv1, ⟨ext, hext⟩, hwt, hkeys⟩ := processRecord_ok st0 st1 row hstep hInv
          obtain ⟨hInv', hwt', hkeys'⟩ := ih st1 h hInv1
          refine ⟨hInv', fun s t => ?_, fun v => ?_⟩
          · rw [hwt' s t, hwt s t]
            simp only [pairSum, List.map_cons, List.sum_cons]
            omega
          · rw [hkeys' v, hkeys v]
            simp only [seenIds, List.map_cons, List.flatten_cons, List.mem_append]
            tauto

theorem buildState_spec (rows : List Row) (st' : BuildState)
    (h : buildState rows = Except.ok st') :
    Inv st' ∧
    (∀ s t, pairWeight st'.graph s t = pairSum rows s t) ∧
    (∀ v, (lookupId st'.nodeIndices v).isSome ↔ v ∈ seenIds rows) := by
  obtain ⟨hInv, hwt, hkeys⟩ := buildState_go rows initState st' h initState_inv
  refine ⟨hInv, fun s t => ?_, fun v => ?_⟩
  · rw [hwt s t]
    simp [initState, pairWeight]
  · rw [hkeys v]
    simp [initState, lookupId]

theorem processRecord_isOk (st : BuildState) (row : Row) :
    (∃ st', processRecord st row = Except.ok st') ↔ 3 ≤ row.length := by
  match row with
  | [] => simp [processRecord]
  | [u1] => simp [processRecord]
  | [u1, u2] => simp [processRecord]
  | u1 :: u2 :: wf :: rest =>
      simp only [processRecord]
      constructor
      · intro _
        simp only [List.length_cons]
        omega
      · intro _
        exact ⟨_, rfl⟩

theorem buildState_go_isOk (rows : List Row) (st0 : BuildState) :
    (∃ st', rows.foldlM processRecord st0 = Except.ok st') ↔
      ∀ r ∈ rows, 3 ≤ r.length := by
  induction rows generalizing st0 with
  | nil => simp [List.foldlM_nil, pure, Except.pure]
  | cons row rest ih =>
      rw [List.foldlM_cons]
      cases hstep : processRecord st0 row with
      | error e =>
          simp only [Bind.bind, Except.bind]
          constructor
          · rintro ⟨st', hst'⟩
            exact Except.noConfusion hst'
          · intro hall
            have h3 := hall row (List.mem_cons_self row rest)
            have := (processRecord_isOk st0 row).mpr h3
            obtain ⟨st', hst'⟩ := this
            rw [hstep] at hst'
            exact Except.noConfusion hst'
      | ok st1 =>
          simp only [Bind.bind, Except.bind]
          rw [ih st1]
          constructor
          · intro hall r hr
            rcases List.mem_cons.mp hr with rfl | hr'
            · exact (processRecord_isOk st0 r).mp ⟨st1, hstep⟩
            · exact hall r hr'
          · intro hall r hr
            exact hall r (List.mem_cons_of_mem row hr)

theorem buildState_error_iff (rows : List Row) :
    buildState rows = Except.error CsvError.malformedRecord ↔
      ∃ r ∈ rows, r.length < 3 := by
  constructor
  · intro h
    by_contra hno
    push_neg at hno
    have : ∀ r ∈ rows, 3 ≤ r.length := hno
    obtain ⟨st', hst'⟩ := (buildState_go_isOk rows initState).mpr this
    rw [buildState] at h
    rw [hst'] at h
    exact Except.noConfusion h
  · intro ⟨r, hr, hlen⟩
    cases hb : buildState rows with
    | error e => cases e; rfl
    | ok st' =>
        have hall := (buildState_go_isOk rows initState).mp ⟨st', hb⟩
        have := hall r hr
        omega

/-! Lemmas: reachability. -/

theorem reachN_refl (g : RGraph) (n i : Nat) : reachN g n i i = true := by
  cases n <;> simp [reachN]

theorem reachN_sound (g : RGraph) (n : Nat) :
    ∀ i j, reachN g n i j = true → Reaches g i j := by
  induction n with
  | zero =>
      intro i j h
      simp only [reachN, beq_iff_eq] at h
      subst h
      exact Relation.ReflTransGen.refl
  | succ n ih =>
      intro i j h
      simp only [reachN, Bool.or_eq_true, beq_iff_eq, List.any_eq_true,
        Bool.and_eq_true] at h
      rcases h with rfl | ⟨k, _, hadj, hrest⟩
      · exact Relation.ReflTransGen.refl
      · exact Relation.ReflTransGen.head hadj (ih k j hrest)

theorem adjacent_target_lt (g : RGraph) (hwf : g.WF) (i k : Nat)
    (h : adjacent g i k = true) : k < g.nodes.length := by
  simp only [adjacent, List.any_eq_true, Bool.and_eq_true, beq_iff_eq] at h
  obtain ⟨e, he, _, rfl⟩ := h
  exact (hwf e he).2

theorem chainOk_mem_lt (g : RGraph) (hwf : g.WF) (j : Nat) :
    ∀ (l : List Nat) (i : Nat), chainOk g i l j = true →
      ∀ x ∈ l, x < g.nodes.length := by
  intro l
  induction l with
  | nil => intro i _ x hx; simp at hx
  | cons k rest ih =>
      intro i h x hx
      simp only [chainOk, Bool.and_eq_true] at h
      rcases List.mem_cons.mp hx with rfl | hx'
      · exact adjacent_target_lt g hwf i x h.1
      · exact ih k h.2 x hx'

theorem chainOk_append_last (g : RGraph) (b c : Nat) (hadj : adjacent g b c = true) :
    ∀ (l : List Nat) (i : Nat), chainOk g i l b = true →
      chainOk g i (l ++ [c]) c = true := by
  intro l
  induction l with
  | nil =>
      intro i h
      simp only [chainOk, beq_iff_eq] at h
      subst h
      simp [chainOk, hadj]
  | cons k rest ih =>
      intro i h
      simp only [chainOk, Bool.and_eq_true] at h
      simp only [List.cons_append, chainOk, Bool.and_eq_true]
      exact ⟨h.1, ih k h.2⟩

theorem reaches_chain (g : RGraph) (i j : Nat) (h : Reaches g i j) :
    ∃ l, chainOk g i l j = true := by
  induction h with
  | refl => exact ⟨[], by simp [chainOk]⟩
  | tail _ hstep ih =>
      obtain ⟨l, hl⟩ := ih
      exact ⟨l ++ [_], chainOk_append_last g _ _ hstep l i hl⟩

theorem chainOk_append_mid (g : RGraph) (l₁ l₂ : List Nat) (m j : Nat) :
    ∀ i, chainOk g i (l₁ ++ (m :: l₂)) j
      = (chainOk g i (l₁ ++ [m]) m && chainOk g m l₂ j) := by
  induction l₁ with
  | nil =>
      intro i
      simp [chainOk, Bool.and_assoc]
  | cons k rest ih =>
      intro i
      simp only [List.cons_append, chainOk, List.append_eq, ih k, Bool.and_assoc]

theorem exists_dup_split {α : Type} (l : List α) (h : ¬ l.Nodup) :
    ∃ l₁ a l₂ l₃, l = l₁ ++ (a :: (l₂ ++ (a :: l₃))) := by
  induction l with
  | nil => exact absurd List.nodup_nil h
  | cons x xs ih =>
      by_cases hx : x ∈ xs
      · obtain ⟨s, t, rfl⟩ := List.append_of_mem hx
        exact ⟨[], x, s, t, by simp⟩
      · have hxs : ¬ xs.Nodup := fun hnd => h (List.nodup_cons.mpr ⟨hx, hnd⟩)
        obtain ⟨l₁, a, l₂, l₃, rfl⟩ := ih hxs
        exact ⟨x :: l₁, a, l₂, l₃, by simp⟩

theorem chainOk_shorten (g : RGraph) (j : Nat) :
    ∀ (n : Nat) (l : List Nat) (i : Nat), l.length ≤ n → chainOk g i l j = true →
      ∃ l', l'.Nodup ∧ chainOk g i l' j = true ∧ l'.length ≤ l.length := by
  intro n
  induction n with
  | zero =>
      intro l i hlen h
      have : l = [] := List.length_eq_zero.mp (Nat.le_zero.mp hlen)
      subst this
      exact ⟨[], List.nodup_nil, h, Nat.le_refl 0⟩
  | succ n ih =>
      intro l i hlen h
      by_cases hnd : l.Nodup
      · exact ⟨l, hnd, h, Nat.le_refl _⟩
      · obtain ⟨l₁, a, l₂, l₃, rfl⟩ := exists_dup_split l hnd
        rw [chainOk_append_mid g l₁ (l₂ ++ (a :: l₃)) a j i, Bool.and_eq_true] at h
        obtain ⟨hfirst, hsecond⟩ := h
        rw [chainOk_append_mid g l₂ l₃ a j a, Bool.and_eq_true] at hsecond
        obtain ⟨_, hlast⟩ := hsecond
        have hshort : chainOk g i (l₁ ++ (a :: l₃)) j = true := by
          rw [chainOk_append_mid g l₁ l₃ a j i, Bool.and_eq_true]
          exact ⟨hfirst, hlast⟩
        have hlen' : (l₁ ++ (a :: l₃)).length ≤ n := by
          simp only [List.length_append, List.length_cons] at hlen ⊢
          omega
        obtain ⟨l', hnd', hl', hle'⟩ := ih (l₁ ++ (a :: l₃)) i hlen' hshort
        refine ⟨l', hnd', hl', ?_⟩
        simp only [List.length_append, List.length_cons] at hle' ⊢
        omega

theorem chainOk_reachN (g : RGraph) (j : Nat) :
    ∀ (l : List Nat) (i n : Nat), chainOk g i l j = true →
      (∀ x ∈ l, x < g.nodes.length) → l.length ≤ n → reachN g n i j = true := by
  intro l
  induction l with
  | nil =>
      intro i n h _ _
      simp only [chainOk, beq_iff_eq] at h
      subst h
      exact reachN_refl g n i
  | cons k rest ih =>
      intro i n h hmem hlen
      simp only [chainOk, Bool.and_eq_true] at h
      match n with
      | 0 => simp at hlen
      | n + 1 =>
          simp only [reachN, Bool.or_eq_true, List.any_eq_true, Bool.and_eq_true]
          refine Or.inr ⟨k, List.mem_range.mpr
            (hmem k (List.mem_cons_self k rest)), h.1, ?_⟩
          refine ih k n h.2 (fun x hx => hmem x (List.mem_cons_of_mem k hx)) ?_
          simp only [List.length_cons] at hlen
          omega

theorem reaches_iff (g : RGraph) (hwf : g.WF) (i j : Nat) :
    reaches g i j = true ↔ Reaches g i j := by
  constructor
  · exact reachN_sound g g.nodes.length i j
  · intro h
    obtain ⟨l, hl⟩ := reaches_chain g i j h
    obtain ⟨l', hnd, hl', _⟩ := chainOk_shorten g j l.length l i (Nat.le_refl _) hl
    have hmem := chainOk_mem_lt g hwf j l' i hl'
    have hlen : l'.length ≤ g.nodes.length := by
      have hcard : l'.toFinset.card = l'.length := List.toFinset_card_of_nodup hnd
      have hsub : l'.toFinset ⊆ Finset.range g.nodes.length := by
        intro x hx
        exact Finset.mem_range.mpr (hmem x (List.mem_toFinset.mp hx))
      have := Finset.card_le_card hsub
      rw [hcard, Finset.card_range] at this
      exact this
    exact chainOk_reachN g j l' i g.nodes.length hl' hmem hlen

theorem reaches_refl (g : RGraph) (i : Nat) : reaches g i i = true :=
  reachN_refl g g.nodes.length i

theorem reaches_trans (g : RGraph) (hwf : g.WF) (i j k : Nat)
    (h1 : reaches g i j = true) (h2 : reaches g j k = true) :
    reaches g i k = true :=
  (reaches_iff g hwf i k).mpr
    (Relation.ReflTransGen.trans ((reaches_iff g hwf i j).mp h1)
      ((reaches_iff g hwf j k).mp h2))

/-! Lemmas: mutual reachability and the component partition. -/

theorem mutualB_refl (g : RGraph) (i : Nat) : mutualB g i i = true := by
  simp [mutualB, reaches_refl]

theorem mutualB_symm (g : RGraph) (i j : Nat) (h : mutualB g i j = true) :
    mutualB g j i = true := by
  simp only [mutualB, Bool.and_eq_true] at h ⊢
  exact ⟨h.2, h.1⟩

theorem mutualB_trans (g : RGraph) (hwf : g.WF) (i j k : Nat)
    (h1 : mutualB g i j = true) (h2 : mutualB g j k = true) :
    mutualB g i k = true := by
  simp only [mutualB, Bool.and_eq_true] at h1 h2 ⊢
  exact ⟨reaches_trans g hwf i j k h1.1 h2.1, reaches_trans g hwf k j i h2.2 h1.2⟩

theorem mem_compOf (g : RGraph) (r j : Nat) :
    j ∈ compOf g r ↔ j < g.nodes.length ∧ mutualB g r j = true := by
  simp [compOf, List.mem_filter, List.mem_range]

theorem isRep_iff (g : RGraph) (r : Nat) :
    isRep g r = true ↔ ∀ j < r, mutualB g r j = false := by
  simp [isRep, List.all_eq_true, List.mem_range, Bool.not_eq_true']

theorem mem_repsList (g : RGraph) (r : Nat) :
    r ∈ repsList g ↔ r < g.nodes.length ∧ isRep g r = true := by
  simp [repsList, List.mem_filter, List.mem_range]

theorem repsList_nodup (g : RGraph) : (repsList g).Nodup :=
  List.Nodup.filter _ (List.nodup_range _)

theorem getElem?_inj_of_nodup {α : Type} (l : List α) (hnd : l.Nodup) (c c' : Nat)
    (a : α) (h1 : l[c]? = some a) (h2 : l[c']? = some a) : c = c' := by
  obtain ⟨hc, hc1⟩ := List.getElem?_eq_some.mp h1
  obtain ⟨hc', hc2⟩ := List.getElem?_eq_some.mp h2
  exact (List.Nodup.getElem_inj_iff hnd).mp (hc1.trans hc2.symm)

theorem exists_comp_mem (g : RGraph) (hwf : g.WF) (i : Nat)
    (hi : i < g.nodes.length) :
    ∃ (c r : Nat), (repsList g)[c]? = some r ∧ i ∈ compOf g r := by
  have hP : ∃ j, mutualB g i j = true := ⟨i, mutualB_refl g i⟩
  have hm : mutualB g i (Nat.find hP) = true := Nat.find_spec hP
  have hmle : Nat.find hP ≤ i := Nat.find_min' hP (mutualB_refl g i)
  have hmlt : Nat.find hP < g.nodes.length := Nat.lt_of_le_of_lt hmle hi
  have hrep : isRep g (Nat.find hP) = true := by
    rw [isRep_iff]
    intro j hj
    cases hb : mutualB g (Nat.find hP) j with
    | false => rfl
    | true =>
        have htr : mutualB g i j = true := mutualB_trans g hwf i (Nat.find hP) j hm hb
        exact absurd htr (Nat.find_min hP hj)
  have hmem : Nat.find hP ∈ repsList g := (mem_repsList g _).mpr ⟨hmlt, hrep⟩
  obtain ⟨c, hc⟩ := List.mem_iff_getElem?.mp hmem
  exact ⟨c, Nat.find hP, hc,
    (mem_compOf g _ i).mpr ⟨hi, mutualB_symm g i (Nat.find hP) hm⟩⟩

theorem rep_unique (g : RGraph) (r r' : Nat)
    (hr : r ∈ repsList g) (hr' : r' ∈ repsList g)
    (hm : mutualB g r r' = true) : r = r' := by
  obtain ⟨_, hrep⟩ := (mem_repsList g r).mp hr
  obtain ⟨_, hrep'⟩ := (mem_repsList g r').mp hr'
  rcases Nat.lt_trichotomy r r' with hlt | heq | hgt
  · have h1 : mutualB g r' r = true := mutualB_symm g r r' hm
    have h2 : mutualB g r' r = false := (isRep_iff g r').mp hrep' r hlt
    rw [h2] at h1
    exact Bool.noConfusion h1
  · exact heq
  · have h2 : mutualB g r r' = false := (isRep_iff g r).mp hrep r' hgt
    rw [h2] at hm
    exact Bool.noConfusion hm

theorem mem_detect (g : RGraph) (u : String) (c : Nat) :
    (u, c) ∈ detect_communities g ↔
      ∃ r, (repsList g)[c]? = some r ∧
        ∃ i, i ∈ compOf g r ∧ u = g.nodes.getD i "" := by
  unfold detect_communities tarjan_scc
  constructor
  · intro h
    rw [List.mem_flatten] at h
    obtain ⟨lst, hlst, hmem⟩ := h
    rw [List.mem_map] at hlst
    obtain ⟨p, hp, rfl⟩ := hlst
    obtain ⟨pi, pl⟩ := p
    obtain ⟨hplen, hpval⟩ := List.mem_enum hp
    dsimp only at hmem
    rw [List.mem_map] at hmem
    obtain ⟨i, hi, heq⟩ := hmem
    simp only [Prod.mk.injEq] at heq
    obtain ⟨hequ, rfl⟩ := heq
    have hplen' : pi < (repsList g).length := by
      simpa using hplen
    refine ⟨(repsList g)[pi], List.getElem?_eq_getElem hplen', i, ?_, hequ.symm⟩
    rw [hpval, List.getElem_map] at hi
    exact hi
  · rintro ⟨r, hr, i, hi, rfl⟩
    obtain ⟨hc, hcr⟩ := List.getElem?_eq_some.mp hr
    rw [List.mem_flatten]
    refine ⟨(compOf g r).map (fun i => (g.nodes.getD i "", c)), ?_, ?_⟩
    · rw [List.mem_map]
      refine ⟨(c, compOf g r), ?_, rfl⟩
      apply List.mem_iff_getElem?.mpr
      have h1 : c < ((repsList g).map (compOf g)).enum.length := by
        simp [List.enum_length, hc]
      refine ⟨c, ?_⟩
      rw [List.getElem?_eq_getElem h1, List.getElem_enum]
      rw [List.getElem_map]
      rw [hcr]
    · rw [List.mem_map]
      exact ⟨i, hi, rfl⟩

theorem getD_inj (l : List String) (hnd : l.Nodup) (i i' : Nat)
    (hi : i < l.length) (hi' : i' < l.length)
    (h : l.getD i "" = l.getD i' "") : i = i' := by
  rw [List.getD_eq_getElem?_getD, List.getElem?_eq_getElem hi] at h
  rw [List.getD_eq_getElem?_getD, List.getElem?_eq_getElem hi'] at h
  simp only [Option.getD_some] at h
  exact (List.Nodup.getElem_inj_iff hnd).mp h

theorem detect_mem_nodes (g : RGraph) (u : String) (c : Nat)
    (h : (u, c) ∈ detect_communities g) : u ∈ g.nodes := by
  obtain ⟨r, _, i, hi, rfl⟩ := (mem_detect g u c).mp h
  obtain ⟨hilt, _⟩ := (mem_compOf g r i).mp hi
  rw [List.getD_eq_getElem?_getD, List.getElem?_eq_getElem hilt]
  exact List.getElem_mem hilt

theorem detect_complete (g : RGraph) (hwf : g.WF) (u : String) (hu : u ∈ g.nodes) :
    ∃ c, (u, c) ∈ detect_communities g := by
  obtain ⟨i, hieq⟩ := List.mem_iff_getElem?.mp hu
  obtain ⟨hilt, _⟩ := List.getElem?_eq_some.mp hieq
  obtain ⟨c, r, hc, hmem⟩ := exists_comp_mem g hwf i hilt
  refine ⟨c, (mem_detect g u c).mpr ⟨r, hc, i, hmem, ?_⟩⟩
  rw [List.getD_eq_getElem?_getD, hieq]
  rfl

theorem detect_index_mutual (g : RGraph) (hnd : g.nodes.Nodup) (u : String)
    (c iu : Nat) (h : (u, c) ∈ detect_communities g)
    (hiu : g.nodes[iu]? = some u) :
    ∃ r, (repsList g)[c]? = some r ∧ mutualB g r iu = true := by
  obtain ⟨r, hr, i, hi, hu⟩ := (mem_detect g u c).mp h
  obtain ⟨hilt, hmi⟩ := (mem_compOf g r i).mp hi
  obtain ⟨hiult, hiueq⟩ := List.getElem?_eq_some.mp hiu
  have hieq : i = iu := by
    refine getD_inj g.nodes hnd i iu hilt hiult ?_
    rw [← hu, List.getD_eq_getElem?_getD, hiu]
    rfl
  subst hieq
  exact ⟨r, hr, hmi⟩

theorem detect_unique (g : RGraph) (hwf : g.WF) (hnd : g.nodes.Nodup)
    (u : String) (c c' : Nat) (h : (u, c) ∈ detect_communities g)
    (h' : (u, c') ∈ detect_communities g) : c = c' := by
  obtain ⟨iu, hiu⟩ := List.mem_iff_getElem?.mp (detect_mem_nodes g u c h)
  obtain ⟨r, hr, hmr⟩ := detect_index_mutual g hnd u c iu h hiu
  obtain ⟨r', hr', hmr'⟩ := detect_index_mutual g hnd u c' iu h' hiu
  have hrr' : mutualB g r r' = true :=
    mutualB_trans g hwf r iu r' hmr (mutualB_symm g r' iu hmr')
  have hreq : r = r' := rep_unique g r r'
    (List.mem_iff_getElem?.mpr ⟨c, hr⟩) (List.mem_iff_getElem?.mpr ⟨c', hr'⟩) hrr'
  subst hreq
  exact getElem?_inj_of_nodup _ (repsList_nodup g) c c' r hr hr'

theorem detect_same_iff (g : RGraph) (hwf : g.WF) (hnd : g.nodes.Nodup)
    (u v : String) (cu cv iu iv : Nat)
    (hcu : (u, cu) ∈ detect_communities g) (hcv : (v, cv) ∈ detect_communities g)
    (hiu : g.nodes[iu]? = some u) (hiv : g.nodes[iv]? = some v) :
    cu = cv ↔ mutualB g iu iv = true := by
  obtain ⟨r, hr, hmr⟩ := detect_index_mutual g hnd u cu iu hcu hiu
  obtain ⟨r', hr', hmr'⟩ := detect_index_mutual g hnd v cv iv hcv hiv
  constructor
  · intro hceq
    subst hceq
    rw [hr] at hr'
    cases hr'
    exact mutualB_trans g hwf iu r iv (mutualB_symm g r iu hmr) hmr'
  · intro hmuv
    have hrr' : mutualB g r r' = true :=
      mutualB_trans g hwf r iv r'
        (mutualB_trans g hwf r iu iv hmr hmuv) (mutualB_symm g r' iv hmr')
    have hreq : r = r' := rep_unique g r r'
      (List.mem_iff_getElem?.mpr ⟨cu, hr⟩) (List.mem_iff_getElem?.mpr ⟨cv, hr'⟩) hrr'
    subst hreq
    exact getElem?_inj_of_nodup _ (repsList_nodup g) cu cv r hr hr'

/-! Lemmas: the render description. -/

theorem labelMapM_error_iff (labels : List (String × Nat)) (nodes : List String) :
    (nodes.mapM (fun u =>
        match lookupId labels u with
        | some c => Except.ok (nodeAttr u c)
        | none => Except.error DotError.partitionViolation)
      = (Except.error DotError.partitionViolation : Except DotError (List String)))
    ↔ ∃ u ∈ nodes, lookupId labels u = none := by
  induction nodes with
  | nil =>
      simp only [List.mapM_nil, pure, Except.pure]
      constructor
      · intro h
        exact Except.noConfusion h
      · rintro ⟨u, hu, _⟩
        simp at hu
  | cons x xs ih =>
      rw [List.mapM_cons]
      cases hx : lookupId labels x with
      | none =>
          simp only [Bind.bind, Except.bind]
          constructor
          · intro _
            exact ⟨x, List.mem_cons_self x xs, hx⟩
          · intro _
            trivial
      | some c =>
          simp only [Bind.bind, Except.bind]
          cases hrest : xs.mapM (fun u =>
              match lookupId labels u with
              | some c => Except.ok (nodeAttr u c)
              | none => Except.error DotError.partitionViolation) with
          | error e =>
              cases e
              constructor
              · intro _
                obtain ⟨u, hu, hnone⟩ := ih.mp hrest
                exact ⟨u, List.mem_cons_of_mem x hu, hnone⟩
              · intro _
                trivial
          | ok ys =>
              simp only [pure, Except.pure]
              constructor
              · intro h
                exact Except.noConfusion h
              · rintro ⟨u, hu, hnone⟩
                rcases List.mem_cons.mp hu with rfl | hu'
                · rw [hx] at hnone
                  exact Option.noConfusion hnone
                · have := ih.mpr ⟨u, hu', hnone⟩
                  rw [hrest] at this
                  exact Except.noConfusion this

theorem labelMapM_ok (labels : List (String × Nat)) (nodes : List String)
    (h : ∀ u ∈ nodes, (lookupId labels u).isSome) :
    ∃ out, nodes.mapM (fun u =>
        match lookupId labels u with
        | some c => Except.ok (nodeAttr u c)
        | none => Except.error DotError.partitionViolation)
      = (Except.ok out : Except DotError (List String)) := by
  induction nodes with
  | nil => exact ⟨[], rfl⟩
  | cons x xs ih =>
      rw [List.mapM_cons]
      cases hx : lookupId labels x with
      | none =>
          have := h x (List.mem_cons_self x xs)
          rw [hx] at this
          exact absurd this (by simp)
      | some c =>
          obtain ⟨out, hout⟩ := ih (fun u hu => h u (List.mem_cons_of_mem x hu))
          refine ⟨nodeAttr x c :: out, ?_⟩
          simp only [Bind.bind, Except.bind, hout, pure, Except.pure]

theorem save_error_iff (d : CommunityDetector) :
    save_graph_to_dot d = Except.error DotError.partitionViolation ↔
      ∃ u ∈ d.graph.nodes, lookupId d.labels u = none := by
  unfold save_graph_to_dot
  cases hm : d.graph.nodes.mapM (fun u =>
      match lookupId d.labels u with
      | some c => Except.ok (nodeAttr u c)
      | none => Except.error DotError.partitionViolation) with
  | error e =>
      cases e
      simp only [Bind.bind, Except.bind, hm]
      exact ⟨fun _ => (labelMapM_error_iff d.labels d.graph.nodes).mp hm,
        fun _ => trivial⟩
  | ok out =>
      simp only [Bind.bind, Except.bind, hm]
      constructor
      · intro h
        exact Except.noConfusion h
      · intro hex
        have := (labelMapM_error_iff d.labels d.graph.nodes).mpr hex
        rw [hm] at this
        exact Except.noConfusion this

theorem save_ok_of_total (d : CommunityDetector)
    (h : ∀ u ∈ d.graph.nodes, (lookupId d.labels u).isSome) :
    ∃ out, save_graph_to_dot d = Except.ok out := by
  obtain ⟨out, hout⟩ := labelMapM_ok d.labels d.graph.nodes h
  refine ⟨(out, d.graph.edges.map (fun e => edgeAttr e.2.2)), ?_⟩
  unfold save_graph_to_dot
  simp only [Bind.bind, Except.bind, hout, pure, Except.pure]

/-! The claims. -/

/-- C1: for every input row multiset, after graph construction there is at most
one edge per ordered (source, target) pair, that edge's accumulated weight
equals the sum of the weights of all rows with that ordered pair, and the
per-pair weights are independent of the order in which rows are processed;
(A,B) and (B,A) are distinct ordered pairs, aggregated separately. -/
theorem C1_aggregation (rows rows' : List Row) (st : BuildState)
    (hperm : rows.Perm rows') (h : buildState rows = Except.ok st) :
    EdgesOnePerPair st.graph ∧
    (∀ s t, pairWeight st.graph s t = pairSum rows s t) ∧
    ∃ st', buildState rows' = Except.ok st' ∧
      ∀ s t, pairWeight st'.graph s t = pairWeight st.graph s t := by
  obtain ⟨hInv, hwt, _⟩ := buildState_spec rows st h
  refine ⟨hInv.onePer, hwt, ?_⟩
  have hall : ∀ r ∈ rows', 3 ≤ r.length := by
    intro r hr
    have hmem : r ∈ rows := hperm.mem_iff.mpr hr
    have := (buildState_go_isOk rows initState).mp ⟨st, h⟩
    exact this r hmem
  obtain ⟨st', h'⟩ := (buildState_go_isOk rows' initState).mpr hall
  obtain ⟨_, hwt', _⟩ := buildState_spec rows' st' h'
  refine ⟨st', h', fun s t => ?_⟩
  rw [hwt' s t, hwt s t]
  exact ((hperm.map (rowContrib s t)).sum_eq).symm

/-- Witness for C1 on the duplicate-row example: both processing orders of
rows (x,y,2) and (x,y,3) give one single edge x→y of weight 5. -/
theorem C1_aggregation_witness :
    ∃ st : BuildState, buildState [["x", "y", "2"], ["x", "y", "3"]] = Except.ok st ∧
      (EdgesOnePerPair st.graph ∧
        (∀ s t, pairWeight st.graph s t = pairSum [["x", "y", "2"], ["x", "y", "3"]] s t) ∧
        ∃ st', buildState [["x", "y", "3"], ["x", "y", "2"]] = Except.ok st' ∧
          ∀ s t, pairWeight st'.graph s t = pairWeight st.graph s t) :=
  ⟨⟨⟨["x", "y"], [(0, 1, 5)]⟩, [("x", 0), ("y", 1)]⟩, by rfl,
    C1_aggregation [["x", "y", "2"], ["x", "y", "3"]] [["x", "y", "3"], ["x", "y", "2"]]
      ⟨⟨["x", "y"], [(0, 1, 5)]⟩, [("x", 0), ("y", 1)]⟩ (by decide) (by rfl)⟩

/-- C2: after detect_communities, the labelled identifiers are exactly the
graph's nodes (the union of the per-community node sets equals the full node
set) and no node carries two distinct community ids (the per-community sets
are pairwise disjoint), i.e. every node gets exactly one CommunityId. -/
theorem C2_partition (g : RGraph) (hwf : g.WF) (hnd : g.nodes.Nodup) :
    (∀ u, u ∈ g.nodes ↔ ∃ c, (u, c) ∈ detect_communities g) ∧
    (∀ u c c', (u, c) ∈ detect_communities g → (u, c') ∈ detect_communities g →
      c = c') := by
  refine ⟨fun u => ⟨detect_complete g hwf u, ?_⟩,
    fun u c c' h h' => detect_unique g hwf hnd u c c' h h'⟩
  rintro ⟨c, hc⟩
  exact detect_mem_nodes g u c hc

/-- Witness for C2 on the end-to-end example graph. -/
theorem C2_partition_witness :
    (∀ u, u ∈ (RGraph.mk ["alice", "bob", "carol", "dave"]
        [(0, 1, 5), (1, 0, 3), (2, 3, 7)]).nodes ↔
      ∃ c, (u, c) ∈ detect_communities
        ⟨["alice", "bob", "carol", "dave"], [(0, 1, 5), (1, 0, 3), (2, 3, 7)]⟩) ∧
    (∀ u c c', (u, c) ∈ detect_communities
        ⟨["alice", "bob", "carol", "dave"], [(0, 1, 5), (1, 0, 3), (2, 3, 7)]⟩ →
      (u, c') ∈ detect_communities
        ⟨["alice", "bob", "carol", "dave"], [(0, 1, 5), (1, 0, 3), (2, 3, 7)]⟩ →
      c = c') :=
  C2_partition ⟨["alice", "bob", "carol", "dave"], [(0, 1, 5), (1, 0, 3), (2, 3, 7)]⟩
    (by unfold RGraph.WF; decide) (by decide)

/-- C3: after detect_communities, two nodes receive the same CommunityId
exactly when each reaches the other along directed edges, i.e. communities are
the strongly connected components (an isolated node, mutual with nothing but
itself, is alone in its community). -/
theorem C3_component (g : RGraph) (hwf : g.WF) (hnd : g.nodes.Nodup)
    (u v : String) (cu cv iu iv : Nat)
    (hcu : (u, cu) ∈ detect_communities g) (hcv : (v, cv) ∈ detect_communities g)
    (hiu : g.nodes[iu]? = some u) (hiv : g.nodes[iv]? = some v) :
    cu = cv ↔ (Reaches g iu iv ∧ Reaches g iv iu) := by
  rw [detect_same_iff g hwf hnd u v cu cv iu iv hcu hcv hiu hiv]
  simp only [mutualB, Bool.and_eq_true]
  rw [reaches_iff g hwf, reaches_iff g hwf]

/-- Witness for C3: on the example graph, alice and bob share an id and the
iff is established at their indices. -/
theorem C3_component_witness :
    (0 : Nat) = 0 ↔
      (Reaches ⟨["alice", "bob", "carol", "dave"],
          [(0, 1, 5), (1, 0, 3), (2, 3, 7)]⟩ 0 1 ∧
        Reaches ⟨["alice", "bob", "carol", "dave"],
          [(0, 1, 5), (1, 0, 3), (2, 3, 7)]⟩ 1 0) :=
  C3_component ⟨["alice", "bob", "carol", "dave"], [(0, 1, 5), (1, 0, 3), (2, 3, 7)]⟩
    (by unfold RGraph.WF; decide) (by decide) "alice" "bob" 0 0 0 1
    (by decide) (by decide) (by rfl) (by rfl)

/-- C4: a row with fewer than the two required identifier fields makes the
whole construction call fail with the malformed-record error: neither
build_graph_from_csv_parallel nor from_csv returns any (partial) graph. -/
theorem C4_malformed (rows : List Row) (r : Row) (hr : r ∈ rows)
    (hlen : r.length < 2) :
    build_graph_from_csv_parallel rows = Except.error CsvError.malformedRecord ∧
    from_csv rows = Except.error CsvError.malformedRecord := by
  have h : buildState rows = Except.error CsvError.malformedRecord :=
    (buildState_error_iff rows).mpr ⟨r, hr, by omega⟩
  constructor
  · rw [build_graph_from_csv_parallel, h]
    rfl
  · rw [from_csv, build_graph_from_csv_parallel, h]
    rfl

/-- Witness for C4: a single one-field row aborts construction. -/
theorem C4_malformed_witness :
    build_graph_from_csv_parallel [["a"]] = Except.error CsvError.malformedRecord ∧
    from_csv [["a"]] = Except.error CsvError.malformedRecord :=
  C4_malformed [["a"]] ["a"] (by decide) (by decide)

/-- C5: a row whose identifier fields are present but whose weight field does
not parse as a u32 is accepted, with the default weight 1 substituted: the row
is processed exactly like the same row with weight field "1". -/
theorem C5_weight_default (st : BuildState) (s t w : String) (rest : List String)
    (hw : rustParseU32 w = none) :
    (∃ st', processRecord st (s :: t :: w :: rest) = Except.ok st') ∧
    processRecord st (s :: t :: w :: rest)
      = processRecord st (s :: t :: "1" :: rest) := by
  constructor
  · refine (processRecord_isOk st _).mpr ?_
    simp only [List.length_cons]
    omega
  · have h1 : weightOf w = 1 := by
      rw [weightOf, hw]
      rfl
    have h2 : weightOf "1" = 1 := by decide
    simp only [processRecord, h1, h2]

/-- Witness for C5 at the non-numeric weight field "xyz". -/
theorem C5_weight_default_witness :
    (∃ st', processRecord initState ["a", "b", "xyz"] = Except.ok st') ∧
    processRecord initState ["a", "b", "xyz"]
      = processRecord initState ["a", "b", "1"] :=
  C5_weight_default initState "a" "b" "xyz" [] (by decide)

/-- C6: after construction succeeds, the registry is a bijection between the
identifiers of the accepted rows and the graph's nodes: its keys are exactly
the seen identifiers, looking a registered index up in the graph recovers the
identifier exactly, every node index is registered under its payload, and
distinct identifiers map to distinct indices. -/
theorem C6_registry_bijection (rows : List Row) (st : BuildState)
    (h : buildState rows = Except.ok st) :
    (∀ u, (lookupId st.nodeIndices u).isSome ↔ u ∈ seenIds rows) ∧
    (∀ u i, lookupId st.nodeIndices u = some i → st.graph.nodes[i]? = some u) ∧
    (∀ i u, st.graph.nodes[i]? = some u → lookupId st.nodeIndices u = some i) ∧
    (∀ u v i, lookupId st.nodeIndices u = some i →
      lookupId st.nodeIndices v = some i → u = v) := by
  obtain ⟨hInv, _, hkeys⟩ := buildState_spec rows st h
  refine ⟨hkeys, hInv.regSound, hInv.regComplete, fun u v i hu hv => ?_⟩
  have h1 := hInv.regSound u i hu
  have h2 := hInv.regSound v i hv
  rw [h1] at h2
  exact Option.some.inj h2

/-- Witness for C6 on the duplicate-row example. -/
theorem C6_registry_bijection_witness :
    ∃ st : BuildState, buildState [["x", "y", "2"], ["x", "y", "3"]] = Except.ok st ∧
      ((∀ u, (lookupId st.nodeIndices u).isSome ↔
          u ∈ seenIds [["x", "y", "2"], ["x", "y", "3"]]) ∧
        (∀ u i, lookupId st.nodeIndices u = some i → st.graph.nodes[i]? = some u) ∧
        (∀ i u, st.graph.nodes[i]? = some u → lookupId st.nodeIndices u = some i) ∧
        (∀ u v i, lookupId st.nodeIndices u = some i →
          lookupId st.nodeIndices v = some i → u = v)) :=
  ⟨⟨⟨["x", "y"], [(0, 1, 5)]⟩, [("x", 0), ("y", 1)]⟩, by rfl,
    C6_registry_bijection [["x", "y", "2"], ["x", "y", "3"]]
      ⟨⟨["x", "y"], [(0, 1, 5)]⟩, [("x", 0), ("y", 1)]⟩ (by rfl)⟩

/-- C7: the node attribute string factors into the label part (the identifier)
and a fill color depending only on the CommunityId, whose hue is
(CommunityId × 60) mod 360 with fixed saturation 0.5 and lightness 0.7; hence
equal ids get the identical encoded color, and consecutive ids differ in hue
by exactly 60 degrees (mod 360). -/
theorem C7_color (c : Nat) (u : String) :
    nodeAttr u c = "label=\"" ++ u ++ "\", style=filled, fillcolor=\""
        ++ (formatHue (nodeHue c) ++ " 0.5 0.7") ++ "\"" ∧
    nodeHue c = (c * 60) % 360 ∧
    nodeHue (c + 1) = (nodeHue c + 60) % 360 := by
  refine ⟨rfl, rfl, ?_⟩
  simp only [nodeHue]
  omega

/-- C8: on the rows (alice,bob,5), (bob,alice,3), (carol,dave,7), construction
yields exactly four nodes and exactly the three stated edges with their
weights; the component partition is {alice,bob}, {carol}, {dave} — three
communities, labelled accordingly. -/
theorem C8_end_to_end :
    build_graph_from_csv_parallel
        [["alice", "bob", "5"], ["bob", "alice", "3"], ["carol", "dave", "7"]]
      = Except.ok ⟨["alice", "bob", "carol", "dave"],
          [(0, 1, 5), (1, 0, 3), (2, 3, 7)]⟩ ∧
    tarjan_scc ⟨["alice", "bob", "carol", "dave"],
        [(0, 1, 5), (1, 0, 3), (2, 3, 7)]⟩ = [[0, 1], [2], [3]] ∧
    detect_communities ⟨["alice", "bob", "carol", "dave"],
        [(0, 1, 5), (1, 0, 3), (2, 3, 7)]⟩
      = [("alice", 0), ("bob", 0), ("carol", 1), ("dave", 2)] ∧
    (tarjan_scc ⟨["alice", "bob", "carol", "dave"],
        [(0, 1, 5), (1, 0, 3), (2, 3, 7)]⟩).length = 3 := by
  refine ⟨by rfl, by decide, by decide, by decide⟩

/-- C9: the render description fails with the partition-violation error exactly
when some graph node is missing from the labels map (never silently
defaulting), and succeeds whenever every node is labelled. -/
theorem C9_missing_label (d : CommunityDetector) :
    (save_graph_to_dot d = Except.error DotError.partitionViolation ↔
      ∃ u ∈ d.graph.nodes, lookupId d.labels u = none) ∧
    ((∀ u ∈ d.graph.nodes, (lookupId d.labels u).isSome) →
      ∃ out, save_graph_to_dot d = Except.ok out) :=
  ⟨save_error_iff d, save_ok_of_total d⟩

/-- Witness for C9: an unlabelled node makes the describe call fail; labelling
it makes the call succeed. -/
theorem C9_missing_label_witness :
    save_graph_to_dot ⟨⟨["a"], []⟩, []⟩
      = Except.error DotError.partitionViolation ∧
    ∃ out, save_graph_to_dot ⟨⟨["a"], []⟩, [("a", 0)]⟩ = Except.ok out := by
  constructor
  · exact (C9_missing_label ⟨⟨["a"], []⟩, []⟩).1.mpr
      ⟨"a", by decide, by decide⟩
  · exact (C9_missing_label ⟨⟨["a"], []⟩, [("a", 0)]⟩).2 (by decide)

/-- C10: a detector fresh from from_csv has an empty labels map, so
get_communities is empty, and on any non-empty graph the describe call hits
the fatal missing-label error until detect_communities fills the labels. -/
theorem C10_fresh_labels (rows : List Row) (d : CommunityDetector)
    (h : from_csv rows = Except.ok d) :
    d.labels = [] ∧ get_communities d = [] ∧
    (d.graph.nodes ≠ [] →
      save_graph_to_dot d = Except.error DotError.partitionViolation) := by
  have hl : d.labels = [] := by
    unfold from_csv build_graph_from_csv_parallel at h
    cases hb : buildState rows with
    | error e =>
        rw [hb] at h
        exact Except.noConfusion h
    | ok st =>
        rw [hb] at h
        simp only [Except.map, Except.ok.injEq] at h
        rw [← h]
  refine ⟨hl, ?_, ?_⟩
  · rw [get_communities, hl]
    rfl
  · intro hne
    apply (save_error_iff d).mpr
    cases hnodes : d.graph.nodes with
    | nil => exact absurd hnodes hne
    | cons x xs =>
        refine ⟨x, List.mem_cons_self x xs, ?_⟩
        rw [hl]
        rfl

/-- Witness for C10 at a one-row input. -/
theorem C10_fresh_labels_witness :
    ∃ d : CommunityDetector, from_csv [["a", "b", "1"]] = Except.ok d ∧
      (d.labels = [] ∧ get_communities d = [] ∧
        (d.graph.nodes ≠ [] →
          save_graph_to_dot d = Except.error DotError.partitionViolation)) :=
  ⟨⟨⟨["a", "b"], [(0, 1, 1)]⟩, []⟩, by rfl,
    C10_fresh_labels [["a", "b", "1"]] ⟨⟨["a", "b"], [(0, 1, 1)]⟩, []⟩ (by rfl)⟩

end CommunityDetection
